import Mathlib

/-!
Shallow embedding of the AutoInt+ recommendation model
(src/autoint/autoint.py) and proofs about it.

Modelling conventions:
  * Tensors are nested lists: a matrix is a list of rows, a 3-tensor a
    list of matrices.  A tensor of shape (b, f, e) is a list of length b
    of matrices with f rows of length e (predicate HasShape3).
  * Scalars are real numbers; purely structural operations (splits,
    concatenations, embedding lookups, the inference helper) are kept
    polymorphic so that they stay executable on decidable carriers.
  * A Keras Dense(n, use_bias=False) kernel is stored column-major: the
    weight is the list of its n columns, and applying the layer to a row
    vector x yields the list of dot products of x with each column.
  * tf.split raises on a head count that does not divide the split axis;
    this is modelled by Option (none = the TensorFlow error).
  * Dropout and batch normalisation are modelled in inference mode
    (training=False), where Dropout is the identity; the DNN branch is
    modelled with the default configuration dnn_use_bn=False, in which no
    BatchNormalization layer is appended.
-/

/-- Dot product of two equal-length rows (zipWith truncates on ragged input,
which never happens under the shape hypotheses used in the theorems). -/
def dot {α : Type} [Mul α] [AddCommMonoid α] (v w : List α) : α :=
  (List.zipWith (· * ·) v w).sum

/-- Pointwise sum of two rows, padding the shorter row with the entries of
the longer one (on equal lengths this is just zipWith (+)). -/
def vecAddP {α : Type} [Add α] : List α → List α → List α
  | [], w => w
  | v, [] => v
  | a :: v, b :: w => (a + b) :: vecAddP v w

/-- Scale a row by a scalar. -/
def smulRow {α : Type} [Mul α] (c : α) (v : List α) : List α :=
  v.map (fun x => c * x)

/-- Linear combination of the rows of a matrix with the given coefficients:
the row-times-matrix product underlying matmul. -/
def rowCombo {α : Type} [Mul α] [Add α] : List α → List (List α) → List α
  | [], _ => []
  | _, [] => []
  | c :: cs, v :: vs => vecAddP (smulRow c v) (rowCombo cs vs)

/-- Matrix product A * B (A : k x m, B : m x n). -/
def matMul {α : Type} [Mul α] [Add α] (A B : List (List α)) : List (List α) :=
  A.map (fun row => rowCombo row B)

/-- Matrix product A * Bᵀ, as computed by tf.matmul with transpose_b=True. -/
def matMulT {α : Type} [Mul α] [AddCommMonoid α] (A B : List (List α)) :
    List (List α) :=
  A.map (fun ra => B.map (fun rb => dot ra rb))

/-- Batched tf.matmul on 3-tensors: one matrix product per batch element. -/
def matMul3 {α : Type} [Mul α] [Add α] (A B : List (List (List α))) :
    List (List (List α)) :=
  List.zipWith matMul A B

/-- Batched tf.matmul with transpose_b=True on 3-tensors. -/
def matMulT3 {α : Type} [Mul α] [AddCommMonoid α] (A B : List (List (List α))) :
    List (List (List α)) :=
  List.zipWith matMulT A B

/-- Application of a bias-free Dense kernel (stored as its list of columns)
to one row vector. -/
def applyDense {α : Type} [Mul α] [AddCommMonoid α] (cols : List (List α))
    (x : List α) : List α :=
  cols.map (fun c => dot x c)

/-- A Dense(units, use_bias=False) layer applied to a 3-tensor acts on the
last axis, i.e. on every row of every matrix. -/
def denseNB {α : Type} [Mul α] [AddCommMonoid α] (cols : List (List α))
    (t : List (List (List α))) : List (List (List α)) :=
  t.map (fun m => m.map (fun x => applyDense cols x))

/-- Static last-axis extent of a 3-tensor (the length of its first row). -/
def lastDim {α : Type} (t : List (List (List α))) : ℕ :=
  ((t.headD []).headD []).length

/-- tf.split(t, h, axis=-1): cut every innermost row into h equal slices,
returning the list of the h resulting tensors.  TensorFlow raises unless h
divides the (uniform) last-axis extent; that error is the none case. -/
def splitLast3 {α : Type} (h : ℕ) (t : List (List (List α))) :
    Option (List (List (List (List α)))) :=
  if h = 0 then none
  else if h ∣ lastDim t ∧ ∀ m ∈ t, ∀ r ∈ m, r.length = lastDim t then
    some ((List.range h).map (fun k =>
      t.map (fun m => m.map (fun r =>
        (r.drop (k * (lastDim t / h))).take (lastDim t / h)))))
  else none

/-- tf.concat(parts, axis=0): stack the tensors along the batch axis. -/
def concat0 {α : Type} (parts : List (List (List (List α)))) :
    List (List (List α)) :=
  parts.flatten

/-- tf.split(t, h, axis=0): cut the batch axis into h equal slices.
TensorFlow raises unless h divides the batch extent (none case). -/
def split0 {α : Type} (h : ℕ) (t : List (List (List α))) :
    Option (List (List (List (List α)))) :=
  if h = 0 then none
  else if h ∣ t.length then
    some ((List.range h).map (fun k =>
      (t.drop (k * (t.length / h))).take (t.length / h)))
  else none

/-- tf.concat of two tensors along the last axis. -/
def concat2Last {α : Type} (a b : List (List (List α))) :
    List (List (List α)) :=
  List.zipWith (fun ma mb => List.zipWith (fun ra rb => ra ++ rb) ma mb) a b

/-- tf.concat(parts, axis=-1) over a list of tensors. -/
def concatLast3 {α : Type} : List (List (List (List α))) → List (List (List α))
  | [] => []
  | [t] => t
  | t :: ts => concat2Last t (concatLast3 ts)

/-- Elementwise sum of two equally shaped 3-tensors (the += of the residual
connection). -/
def tensorAdd {α : Type} [Add α] (a b : List (List (List α))) :
    List (List (List α)) :=
  List.zipWith (fun ma mb => List.zipWith (fun ra rb => List.zipWith (· + ·) ra rb) ma mb) a b

/-- tf.nn.softmax along the last axis, on one row. -/
noncomputable def softmax (v : List ℝ) : List ℝ :=
  v.map (fun x => Real.exp x / (v.map Real.exp).sum)

/-- tf.nn.softmax(t, axis=-1) on a 3-tensor. -/
noncomputable def softmax3 (t : List (List (List ℝ))) : List (List (List ℝ)) :=
  t.map (fun m => m.map softmax)

/-- tf.sigmoid. -/
noncomputable def sigmoid (x : ℝ) : ℝ :=
  1 / (1 + Real.exp (-x))

/-- Shape predicate: t is a list of b matrices, each with f rows of length e. -/
def HasShape3 {α : Type} (t : List (List (List α))) (b f e : ℕ) : Prop :=
  t.length = b ∧ ∀ m ∈ t, m.length = f ∧ ∀ r ∈ m, r.length = e

instance {α : Type} (t : List (List (List α))) (b f e : ℕ) :
    Decidable (HasShape3 t b f e) := by
  unfold HasShape3; infer_instance

/-- AutoIntLayer.call, lines 38-49: project the input with the bias-free
Query and Key kernels, split both into att_head_num heads along the last
axis, restack the heads along the batch axis, take the (unscaled) dot
product scores and normalise them with softmax along the key axis. -/
noncomputable def attentionScores (W_Query W_Key : List (List ℝ)) (att_head_num : ℕ)
    (inputs : List (List (List ℝ))) : Option (List (List (List ℝ))) :=
  let Q := denseNB W_Query inputs
  let Km := denseNB W_Key inputs
  (splitLast3 att_head_num Q).bind fun Qs =>
    (splitLast3 att_head_num Km).bind fun Ks =>
      some (softmax3 (matMulT3 (concat0 Qs) (concat0 Ks)))

/-- AutoIntLayer.call (src/autoint/autoint.py lines 36-58).  The three
tf.split calls of the source are independent, so the Value split is
performed after the attention scores without changing the result.  none
models the tf.split error raised when att_head_num does not divide the
last-axis extent. -/
noncomputable def AutoIntLayer.call (W_Query W_Key W_Value : List (List ℝ))
    (att_head_num : ℕ) (att_res : Bool) (inputs : List (List (List ℝ))) :
    Option (List (List (List ℝ))) :=
  (attentionScores W_Query W_Key att_head_num inputs).bind fun attention =>
    (splitLast3 att_head_num (denseNB W_Value inputs)).bind fun Vs =>
      let output := matMul3 attention (concat0 Vs)
      (split0 att_head_num output).bind fun parts =>
        let out := concatLast3 parts
        some (if att_res then tensorAdd out inputs else out)

/-- np.cumsum on a list of naturals. -/
def cumsum : List ℕ → List ℕ
  | [] => []
  | d :: ds => d :: (cumsum ds).map (fun s => d + s)

/-- FeaturesEmbedding offsets (line 66):
np.array((0, *np.cumsum(field_dims)[:-1])). -/
def FeaturesEmbedding.offsets (field_dims : List ℕ) : List ℕ :=
  0 :: (cumsum field_dims).dropLast

/-- The global embedding-table indices produced by x + offsets (line 74)
for one input row of raw per-field codes. -/
def globalIndices (field_dims : List ℕ) (x : List ℕ) : List ℕ :=
  List.zipWith (· + ·) x (FeaturesEmbedding.offsets field_dims)

/-- FeaturesEmbedding.call (lines 73-75) on a batch: add the per-field
offsets to each row, then look every resulting global index up in the
shared embedding table (modelled as a function from global index to
embedding row). -/
def FeaturesEmbedding.call {α : Type} (table : ℕ → List α)
    (field_dims : List ℕ) (x : List (List ℕ)) : List (List (List α)) :=
  x.map (fun row => (globalIndices field_dims row).map table)

/-- Configuration stored by MultiHeadSelfAttention.__init__. -/
structure MHSAConfig where
  att_embedding_size : ℤ
  head_num : ℤ
  use_res : Bool
  scaling : Bool
  seed : ℤ

/-- MultiHeadSelfAttention.__init__ (lines 105-113): raises ValueError
exactly when head_num <= 0. -/
def MultiHeadSelfAttention.init (att_embedding_size head_num : ℤ)
    (use_res scaling : Bool) (seed : ℤ) : Except String MHSAConfig :=
  if head_num ≤ 0 then .error "head_num must be a int > 0"
  else .ok ⟨att_embedding_size, head_num, use_res, scaling, seed⟩

/-- MultiHeadSelfAttention.build (lines 115-134): raises ValueError exactly
when the input shape is not 3-dimensional; otherwise reads the embedding
size off the last component of the shape. -/
def MultiHeadSelfAttention.build (input_shape : List ℕ) : Except String ℕ :=
  if input_shape.length ≠ 3 then
    .error "Unexpected inputs dimensions, expect to be 3 dimensions"
  else .ok (input_shape.getLastD 0)

/-- The rank guard of MultiHeadSelfAttention.call (lines 137-139): raises
ValueError exactly when K.ndim(inputs) is not 3. -/
def MultiHeadSelfAttention.callCheck (ndim : ℕ) : Except String Unit :=
  if ndim ≠ 3 then
    .error "Unexpected inputs dimensions, expect to be 3 dimensions"
  else .ok ()

/-- Weights of one AutoIntLayer: the three bias-free Dense kernels, stored
column-major. -/
structure AttnW where
  W_Query : List (List ℝ)
  W_Key : List (List ℝ)
  W_Value : List (List ℝ)

/-- The attention stack of AutoIntMLP.call (lines 204-206): each layer's
output is the next layer's input. -/
noncomputable def runLayers (layers : List AttnW) (att_head_num : ℕ)
    (att_res : Bool) (t : List (List (List ℝ))) : Option (List (List (List ℝ))) :=
  layers.foldlM (fun acc L =>
    AutoIntLayer.call L.W_Query L.W_Key L.W_Value att_head_num att_res acc) t

/-- Weights of one biased Dense layer: kernel columns and bias vector. -/
structure DenseW where
  cols : List (List ℝ)
  bias : List ℝ

/-- A Dense layer with bias and activation applied to one row vector. -/
noncomputable def denseForward (act : ℝ → ℝ) (L : DenseW) (x : List ℝ) : List ℝ :=
  List.zipWith (fun c b => act (dot x c + b)) L.cols L.bias

/-- Parameters of AutoIntMLP (lines 178-198): embedding table and field
cardinalities, the bias-free final projection of the attention branch, the
Sequential DNN branch (hidden Dense layers, their activation, and the
closing Dense(1, sigmoid)), and the stack of attention layers.  Dropout is
the identity at inference time and dnn_use_bn is False by default, so
neither appears. -/
structure AutoIntMLP where
  table : ℕ → List ℝ
  field_dims : List ℕ
  finalCol : List ℝ
  dnnHidden : List DenseW
  dnnAct : ℝ → ℝ
  dnnFinal : DenseW
  intLayers : List AttnW
  att_head_num : ℕ
  att_res : Bool

/-- The Sequential DNN branch of AutoIntMLP (lines 187-194) on one
flattened embedding row: the hidden Dense layers with the configured
activation, then Dense(1, activation=sigmoid).  The trailing Dropout is
the identity at inference time. -/
noncomputable def dnnBranch (m : AutoIntMLP) (x : List ℝ) : List ℝ :=
  denseForward sigmoid m.dnnFinal
    (m.dnnHidden.foldl (fun v L => denseForward m.dnnAct L v) x)

/-- AutoIntMLP.call (lines 200-214): embed the raw codes once, flatten a
copy for the DNN branch, run the attention stack, flatten its output and
project it to one scalar with the bias-free final layer, and apply sigmoid
to the sum of the two branch outputs. -/
noncomputable def AutoIntMLP.call (m : AutoIntMLP) (inputs : List (List ℕ)) :
    Option (List (List ℝ)) :=
  let embed_x := FeaturesEmbedding.call m.table m.field_dims inputs
  let dnn_embed := embed_x.map List.flatten
  (runLayers m.intLayers m.att_head_num m.att_res embed_x).bind fun att_input =>
    let att_flat := att_input.map List.flatten
    let att_output := att_flat.map (fun v => [dot v m.finalCol])
    let dnn_output := dnn_embed.map (dnnBranch m)
    some (List.zipWith (List.zipWith (fun a d => sigmoid (a + d))) att_output dnn_output)

/-- AutoIntMLPModel.call (lines 231-238): delegates to the AutoIntMLP layer;
the standalone output_layer is never invoked. -/
noncomputable def AutoIntMLPModel.call (m : AutoIntMLP) (inputs : List (List ℕ)) :
    Option (List (List ℝ)) :=
  AutoIntMLP.call m inputs

/-- The batching loop of predict_model (lines 264-269): process the rows in
chunks of batch_size = 2048, and for each row append the pair of the row's
second entry (feature[:2][1]) and its model score. -/
def predictBatches {α : Type} (score : List ℤ → α) : List (List ℤ) → List (ℤ × α)
  | [] => []
  | r :: rs =>
      ((r :: rs).take 2048).map (fun row => (row.getD 1 0, score row)) ++
        predictBatches score ((r :: rs).drop 2048)
  termination_by rows => rows.length
  decreasing_by simp; omega

/-- predict_model (lines 259-271): run the batching loop, then return the
first top = 10 pairs after sorting by descending score.  The model itself
is abstracted into the score function; sorting is insertionSort for the
descending-score relation (ties are broken differently from CPython's
stable sort, which no stated property depends on). -/
def predict_model {α : Type} [LinearOrder α] (score : List ℤ → α)
    (pred_df : List (List ℤ)) : List (ℤ × α) :=
  (List.insertionSort (fun s t => t.2 ≤ s.2) (predictBatches score pred_df)).take 10

/-- Membership in a slice of the shared embedding table, a slice being the
pair (offset, cardinality). -/
def inSlice (g : ℕ) (od : ℕ × ℕ) : Prop :=
  od.1 ≤ g ∧ g < od.1 + od.2

/-- Two table slices (offset, cardinality) have no common index. -/
def disjointSlice (a b : ℕ × ℕ) : Prop :=
  ∀ n, a.1 ≤ n → n < a.1 + a.2 → ¬ (b.1 ≤ n ∧ n < b.1 + b.2)

/-- Every element of the output of the fused model is strictly between 0
and 1 (vacuously so when the forward pass fails). -/
def probOutput (o : Option (List (List ℝ))) : Prop :=
  ∀ out ∈ o, ∀ row ∈ out, ∀ y ∈ row, 0 < y ∧ y < 1

/-- A concrete 4 x 4 all-zero Dense kernel used to instantiate theorems on
a concrete input. -/
noncomputable def wKernel4 : List (List ℝ) :=
  List.replicate 4 (List.replicate 4 (0 : ℝ))

/-- A concrete batch of one 1 x 4 embedding matrix used to instantiate
theorems on a concrete input. -/
noncomputable def wInput4 : List (List (List ℝ)) :=
  [[[0, 0, 0, 0]]]

/-- A concrete 2 x 2 all-zero Dense kernel used to instantiate theorems on
a concrete input. -/
noncomputable def wKernel2 : List (List ℝ) :=
  [[0, 0], [0, 0]]

/-- A concrete batch of one 1 x 2 embedding matrix used to instantiate
theorems on a concrete input. -/
noncomputable def wInput2 : List (List (List ℝ)) :=
  [[[0, 0]]]

/-- A concrete AutoIntMLP parameter set (one field of cardinality 1, an
all-zero table, no hidden DNN layer, no attention layer) used to
instantiate theorems on a concrete input. -/
noncomputable def wModel : AutoIntMLP where
  table := fun _ => [0]
  field_dims := [1]
  finalCol := [0]
  dnnHidden := []
  dnnAct := fun x => x
  dnnFinal := { cols := [[0]], bias := [0] }
  intLayers := []
  att_head_num := 2
  att_res := true

section ListLemmas

theorem mem_zipWith_decomp {α β γ : Type} {f : α → β → γ} {c : γ} :
    ∀ {l : List α} {l' : List β}, c ∈ List.zipWith f l l' →
      ∃ a ∈ l, ∃ b ∈ l', c = f a b
  | [], _, h => by simp at h
  | _ :: _, [], h => by simp at h
  | a :: as, b :: bs, h => by
      rcases List.mem_cons.1 h with h | h
      · exact ⟨a, by simp, b, by simp, h⟩
      · obtain ⟨x, hx, y, hy, hc⟩ := mem_zipWith_decomp h
        exact ⟨x, by simp [hx], y, by simp [hy], hc⟩

theorem zipWith_ext {α β γ : Type} {f g : α → β → γ} (h : ∀ a b, f a b = g a b) :
    ∀ (l : List α) (l' : List β), List.zipWith f l l' = List.zipWith g l l'
  | [], _ => by simp
  | _ :: _, [] => by simp
  | a :: as, b :: bs => by
      simp only [List.zipWith_cons_cons, h a b, zipWith_ext h as bs]

theorem vecAddP_length {α : Type} [Add α] :
    ∀ v w : List α, (vecAddP v w).length = max v.length w.length
  | [], w => by simp [vecAddP]
  | a :: v, [] => by simp [vecAddP]
  | a :: v, b :: w => by
      simp only [vecAddP, List.length_cons, vecAddP_length v w]
      omega

theorem smulRow_length {α : Type} [Mul α] (c : α) (v : List α) :
    (smulRow c v).length = v.length := by
  simp [smulRow]

theorem rowCombo_length {α : Type} [Mul α] [Add α] {e : ℕ} :
    ∀ {cs : List α} {vs : List (List α)}, cs.length = vs.length → vs ≠ [] →
      (∀ v ∈ vs, v.length = e) → (rowCombo cs vs).length = e
  | [], vs, hlen, hne, _ => by
      cases vs with
      | nil => exact absurd rfl hne
      | cons v vs => simp at hlen
  | c :: cs, [], hlen, hne, _ => by simp at hlen
  | c :: cs, v :: vs, hlen, _, he => by
      have hv : v.length = e := he v (by simp)
      cases vs with
      | nil =>
          cases cs with
          | nil => simp [rowCombo, vecAddP_length, smulRow_length, hv]
          | cons c' cs' => simp at hlen
      | cons v' vs' =>
          have hlen' : cs.length = (v' :: vs').length := by simpa using hlen
          have ih := @rowCombo_length _ _ _ e cs (v' :: vs') hlen' (by simp)
            (fun w hw => he w (List.mem_cons_of_mem _ hw))
          simp [rowCombo, vecAddP_length, smulRow_length, hv, ih]

end ListLemmas

section ShapeLemmas

theorem hasShape3_denseNB {α : Type} [Mul α] [AddCommMonoid α]
    {t : List (List (List α))} {b f e : ℕ} (W : List (List α))
    (h : HasShape3 t b f e) : HasShape3 (denseNB W t) b f W.length := by
  obtain ⟨hb, hm⟩ := h
  refine ⟨by simp [denseNB, hb], ?_⟩
  intro m hmem
  obtain ⟨m0, hm0, rfl⟩ := List.mem_map.1 hmem
  refine ⟨by simp [(hm m0 hm0).1], ?_⟩
  intro r hr
  obtain ⟨r0, _, rfl⟩ := List.mem_map.1 hr
  simp [applyDense]

theorem lastDim_of_shape {α : Type} {t : List (List (List α))} {b f e : ℕ}
    (h : HasShape3 t b f e) (hb : 0 < b) (hf : 0 < f) : lastDim t = e := by
  obtain ⟨hlen, hm⟩ := h
  cases t with
  | nil => simp at hlen; omega
  | cons m ms =>
      obtain ⟨hmf, hrow⟩ := hm m (by simp)
      cases m with
      | nil => simp at hmf; omega
      | cons r rs => simpa [lastDim] using hrow r (by simp)

theorem rows_eq_lastDim_of_shape {α : Type} {t : List (List (List α))}
    {b f e : ℕ} (h : HasShape3 t b f e) :
    ∀ m ∈ t, ∀ r ∈ m, r.length = lastDim t := by
  intro m hm r hr
  have hb : 0 < b := by
    rcases h with ⟨hlen, _⟩
    rcases t with _ | ⟨m0, ms⟩
    · simp at hm
    · simp at hlen; omega
  have hf : 0 < f := by
    rcases h.2 m hm with ⟨hmf, _⟩
    rcases m with _ | ⟨r0, rs⟩
    · simp at hr
    · simp at hmf; omega
  rw [lastDim_of_shape h hb hf]
  exact (h.2 m hm).2 r hr

theorem splitLast3_of_dvd {α : Type} {h b f e : ℕ} {t : List (List (List α))}
    (h0 : h ≠ 0) (hdvd : h ∣ e) (hs : HasShape3 t b f e) :
    ∃ parts, splitLast3 h t = some parts ∧ parts.length = h ∧
      ∀ p ∈ parts, HasShape3 p b f (e / h) := by
  have hdim : h ∣ lastDim t := by
    rcases Nat.eq_zero_or_pos b with hb | hb
    · rcases hs with ⟨hlen, _⟩
      rcases t with _ | ⟨m, ms⟩
      · simp [lastDim]
      · simp [hb] at hlen
    · rcases Nat.eq_zero_or_pos f with hf | hf
      · rcases t with _ | ⟨m, ms⟩
        · simp [lastDim]
        · have := (hs.2 m (by simp)).1
          rcases m with _ | ⟨r, rs⟩
          · simp [lastDim]
          · simp [hf] at this
      · rw [lastDim_of_shape hs hb hf]; exact hdvd
  have hguard : h ∣ lastDim t ∧ ∀ m ∈ t, ∀ r ∈ m, r.length = lastDim t :=
    ⟨hdim, rows_eq_lastDim_of_shape hs⟩
  refine ⟨(List.range h).map (fun k =>
      t.map (fun m => m.map (fun r =>
        (r.drop (k * (lastDim t / h))).take (lastDim t / h)))), ?_, by simp, ?_⟩
  · unfold splitLast3
    rw [if_neg h0, if_pos hguard]
  intro p hp
  obtain ⟨k, hk, rfl⟩ := List.mem_map.1 hp
  have hkh : k < h := List.mem_range.1 hk
  refine ⟨by simp [hs.1], ?_⟩
  intro m hm
  obtain ⟨m0, hm0, rfl⟩ := List.mem_map.1 hm
  refine ⟨by simp [(hs.2 m0 hm0).1], ?_⟩
  intro r hr
  obtain ⟨r0, hr0, rfl⟩ := List.mem_map.1 hr
  have hlen0 : r0.length = lastDim t := rows_eq_lastDim_of_shape hs m0 hm0 r0 hr0
  have hre : r0.length = e := (hs.2 m0 hm0).2 r0 hr0
  have hde : lastDim t = e := hlen0.symm.trans hre
  have hmul : h * (e / h) = e := Nat.mul_div_cancel' hdvd
  have hsm : (k + 1) * (e / h) = k * (e / h) + e / h := Nat.succ_mul k (e / h)
  have hbound : (k + 1) * (e / h) ≤ e := by
    calc (k + 1) * (e / h) ≤ h * (e / h) := Nat.mul_le_mul_right _ hkh
      _ = e := hmul
  rw [List.length_take, List.length_drop, hlen0, hde]
  omega

end ShapeLemmas

theorem splitLast3_none_of_not_dvd {α : Type} {h : ℕ} {t : List (List (List α))}
    (hnd : ¬ h ∣ lastDim t) : splitLast3 h t = none := by
  unfold splitLast3
  rcases eq_or_ne h 0 with rfl | h0
  · rw [if_pos rfl]
  · rw [if_neg h0, if_neg]
    intro hguard
    exact hnd hguard.1

theorem hasShape3_concat0 {α : Type} {b f e : ℕ} :
    ∀ {parts : List (List (List (List α)))},
      (∀ p ∈ parts, HasShape3 p b f e) →
      HasShape3 (concat0 parts) (parts.length * b) f e
  | [], _ => by simp [concat0, HasShape3]
  | p :: ps, hp => by
      have hhead := hp p (by simp)
      have htail := @hasShape3_concat0 _ b f e ps
        (fun q hq => hp q (List.mem_cons_of_mem _ hq))
      constructor
      · have hfl : ps.flatten.length = ps.length * b := htail.1
        simp only [concat0, List.flatten_cons, List.length_append, hhead.1,
          hfl, List.length_cons]
        ring
      · intro m hm
        have hm' : m ∈ p ∨ ∃ l ∈ ps, m ∈ l := by simpa [concat0] using hm
        rcases hm' with hm | ⟨l, hl, hml⟩
        · exact hhead.2 m hm
        · exact (hp l (List.mem_cons_of_mem _ hl)).2 m hml

theorem hasShape3_matMulT3 {α : Type} [Mul α] [AddCommMonoid α]
    {A B : List (List (List α))} {n f e : ℕ}
    (hA : HasShape3 A n f e) (hB : HasShape3 B n f e) :
    HasShape3 (matMulT3 A B) n f f := by
  constructor
  · simp [matMulT3, hA.1, hB.1]
  · intro m hm
    obtain ⟨ma, hma, mb, hmb, rfl⟩ := mem_zipWith_decomp hm
    constructor
    · simp [matMulT, (hA.2 ma hma).1]
    · intro r hr
      obtain ⟨ra, _, rfl⟩ := List.mem_map.1 hr
      simp [(hB.2 mb hmb).1]


theorem hasShape3_softmax3 {t : List (List (List ℝ))} {n f e : ℕ}
    (h : HasShape3 t n f e) : HasShape3 (softmax3 t) n f e := by
  constructor
  · simp [softmax3, h.1]
  · intro m hm
    obtain ⟨m0, hm0, rfl⟩ := List.mem_map.1 hm
    refine ⟨by simp [(h.2 m0 hm0).1], ?_⟩
    intro r hr
    obtain ⟨r0, hr0, rfl⟩ := List.mem_map.1 hr
    simp [softmax, (h.2 m0 hm0).2 r0 hr0]

theorem hasShape3_matMul3 {α : Type} [Mul α] [Add α]
    {A B : List (List (List α))} {n f e : ℕ}
    (hA : HasShape3 A n f f) (hB : HasShape3 B n f e) :
    HasShape3 (matMul3 A B) n f e := by
  constructor
  · simp [matMul3, hA.1, hB.1]
  · intro m hm
    obtain ⟨ma, hma, mb, hmb, rfl⟩ := mem_zipWith_decomp hm
    constructor
    · simp [matMul, (hA.2 ma hma).1]
    · intro r hr
      obtain ⟨ra, hra, rfl⟩ := List.mem_map.1 hr
      have hmaf : ra.length = f := (hA.2 ma hma).2 ra hra
      have hmbne : mb ≠ [] := by
        intro hnil
        have := (hB.2 mb hmb).1
        rw [hnil] at this
        simp at this
        have hposf : 0 < f := by
          have := (hA.2 ma hma).1
          rcases ma with _ | ⟨x, xs⟩
          · simp at hra
          · simp at this; omega
        omega
      exact rowCombo_length (by rw [hmaf, (hB.2 mb hmb).1]) hmbne
        (fun v hv => (hB.2 mb hmb).2 v hv)

theorem split0_of_shape {α : Type} {h b f e : ℕ} {t : List (List (List α))}
    (h0 : h ≠ 0) (hs : HasShape3 t (h * b) f e) :
    ∃ parts, split0 h t = some parts ∧ parts.length = h ∧
      ∀ p ∈ parts, HasShape3 p b f e := by
  have hdvd : h ∣ t.length := by rw [hs.1]; exact Dvd.intro b rfl
  have hdiv : t.length / h = b := by
    rw [hs.1]
    exact Nat.mul_div_cancel_left b (Nat.pos_of_ne_zero h0)
  refine ⟨(List.range h).map (fun k =>
      (t.drop (k * (t.length / h))).take (t.length / h)), ?_, by simp, ?_⟩
  · unfold split0
    rw [if_neg h0, if_pos hdvd]
  intro p hp
  obtain ⟨k, hk, rfl⟩ := List.mem_map.1 hp
  have hkh : k < h := List.mem_range.1 hk
  constructor
  · rw [List.length_take, List.length_drop, hdiv, hs.1]
    have hsm : (k + 1) * b = k * b + b := Nat.succ_mul k b
    have hbound : (k + 1) * b ≤ h * b := Nat.mul_le_mul_right _ hkh
    omega
  · intro m hm
    exact hs.2 m (List.mem_of_mem_drop (List.mem_of_mem_take hm))

theorem hasShape3_concat2Last {α : Type} {a c : List (List (List α))}
    {b f e1 e2 : ℕ} (ha : HasShape3 a b f e1) (hc : HasShape3 c b f e2) :
    HasShape3 (concat2Last a c) b f (e1 + e2) := by
  constructor
  · simp [concat2Last, ha.1, hc.1]
  · intro m hm
    obtain ⟨ma, hma, mb, hmb, rfl⟩ := mem_zipWith_decomp hm
    constructor
    · simp [(ha.2 ma hma).1, (hc.2 mb hmb).1]
    · intro r hr
      obtain ⟨ra, hra, rb, hrb, rfl⟩ := mem_zipWith_decomp hr
      simp [(ha.2 ma hma).2 ra hra, (hc.2 mb hmb).2 rb hrb]

theorem hasShape3_concatLast3 {α : Type} {b f e : ℕ} :
    ∀ {parts : List (List (List (List α)))}, parts ≠ [] →
      (∀ p ∈ parts, HasShape3 p b f e) →
      HasShape3 (concatLast3 parts) b f (parts.length * e)
  | [], hne, _ => absurd rfl hne
  | [p], _, hp => by simpa [concatLast3] using hp p (by simp)
  | p :: q :: ps, _, hp => by
      have htail := @hasShape3_concatLast3 _ b f e (q :: ps) (by simp)
        (fun x hx => hp x (List.mem_cons_of_mem _ hx))
      have hhead := hp p (by simp)
      have := hasShape3_concat2Last hhead htail
      have hlen : (p :: q :: ps).length * e = e + (q :: ps).length * e := by
        simp [List.length_cons]
        ring
      rw [show concatLast3 (p :: q :: ps) = concat2Last p (concatLast3 (q :: ps))
        from rfl, hlen]
      exact this

theorem hasShape3_tensorAdd {α : Type} [Add α] {a c : List (List (List α))}
    {b f e : ℕ} (ha : HasShape3 a b f e) (hc : HasShape3 c b f e) :
    HasShape3 (tensorAdd a c) b f e := by
  constructor
  · simp [tensorAdd, ha.1, hc.1]
  · intro m hm
    obtain ⟨ma, hma, mb, hmb, rfl⟩ := mem_zipWith_decomp hm
    constructor
    · simp [(ha.2 ma hma).1, (hc.2 mb hmb).1]
    · intro r hr
      obtain ⟨ra, hra, rb, hrb, rfl⟩ := mem_zipWith_decomp hr
      simp [(ha.2 ma hma).2 ra hra, (hc.2 mb hmb).2 rb hrb]

section RealLemmas

theorem sum_map_div (l : List ℝ) (c : ℝ) :
    (l.map (fun x => x / c)).sum = l.sum / c := by
  induction l with
  | nil => simp
  | cons a as ih => simp [ih, add_div]

theorem softmax_sum_eq_one {v : List ℝ} (hv : v ≠ []) : (softmax v).sum = 1 := by
  have hpos : 0 < (v.map Real.exp).sum := by
    refine List.sum_pos _ (fun x hx => ?_) (by simpa using hv)
    obtain ⟨y, _, rfl⟩ := List.mem_map.1 hx
    exact Real.exp_pos y
  have : softmax v = (v.map Real.exp).map (fun x => x / (v.map Real.exp).sum) := by
    simp [softmax, List.map_map, Function.comp]
  rw [this, sum_map_div, div_self (ne_of_gt hpos)]

theorem sigmoid_pos (x : ℝ) : 0 < sigmoid x := by
  have h : (0:ℝ) < 1 + Real.exp (-x) := by positivity
  exact div_pos one_pos h

theorem sigmoid_lt_one (x : ℝ) : sigmoid x < 1 := by
  have h : (0:ℝ) < 1 + Real.exp (-x) := by positivity
  rw [sigmoid, div_lt_one h]
  have := Real.exp_pos (-x)
  linarith

end RealLemmas

section LayerLemmas

theorem attentionScores_of_dvd {W_Query W_Key : List (List ℝ)} {h b f e : ℕ}
    {inputs : List (List (List ℝ))} (h0 : h ≠ 0) (hdvd : h ∣ e)
    (hin : HasShape3 inputs b f e) (hq : W_Query.length = e)
    (hk : W_Key.length = e) :
    ∃ A, attentionScores W_Query W_Key h inputs = some A ∧
      HasShape3 A (h * b) f f ∧ ∀ mat ∈ A, ∀ row ∈ mat, row.sum = 1 := by
  have hQ : HasShape3 (denseNB W_Query inputs) b f e := by
    have := hasShape3_denseNB W_Query hin
    rwa [hq] at this
  have hK : HasShape3 (denseNB W_Key inputs) b f e := by
    have := hasShape3_denseNB W_Key hin
    rwa [hk] at this
  obtain ⟨Qs, hQs, hQl, hQp⟩ := splitLast3_of_dvd h0 hdvd hQ
  obtain ⟨Ks, hKs, hKl, hKp⟩ := splitLast3_of_dvd h0 hdvd hK
  have hQh : HasShape3 (concat0 Qs) (h * b) f (e / h) := by
    have := hasShape3_concat0 hQp
    rwa [hQl] at this
  have hKh : HasShape3 (concat0 Ks) (h * b) f (e / h) := by
    have := hasShape3_concat0 hKp
    rwa [hKl] at this
  have hS := hasShape3_matMulT3 hQh hKh
  refine ⟨softmax3 (matMulT3 (concat0 Qs) (concat0 Ks)), ?_,
    hasShape3_softmax3 hS, ?_⟩
  · simp [attentionScores, hQs, hKs]
  · intro mat hmat row hrow
    obtain ⟨mat0, hmat0, rfl⟩ := List.mem_map.1 hmat
    obtain ⟨r0, hr0, rfl⟩ := List.mem_map.1 hrow
    have hfpos : 0 < f := by
      have := (hS.2 mat0 hmat0).1
      rcases mat0 with _ | ⟨x, xs⟩
      · simp at hr0
      · simp at this; omega
    have hr0f : r0.length = f := (hS.2 mat0 hmat0).2 r0 hr0
    have hr0ne : r0 ≠ [] := by
      intro hnil
      rw [hnil] at hr0f
      simp at hr0f
      omega
    exact softmax_sum_eq_one hr0ne

theorem autoIntLayer_call_of_dvd {W_Query W_Key W_Value : List (List ℝ)}
    {h b f e : ℕ} {att_res : Bool} {inputs : List (List (List ℝ))}
    (h0 : h ≠ 0) (hdvd : h ∣ e) (hin : HasShape3 inputs b f e)
    (hq : W_Query.length = e) (hk : W_Key.length = e) (hv : W_Value.length = e) :
    ∃ out, AutoIntLayer.call W_Query W_Key W_Value h att_res inputs = some out ∧
      HasShape3 out b f e := by
  obtain ⟨A, hAeq, hA, _⟩ := attentionScores_of_dvd h0 hdvd hin hq hk
  have hV : HasShape3 (denseNB W_Value inputs) b f e := by
    have := hasShape3_denseNB W_Value hin
    rwa [hv] at this
  obtain ⟨Vs, hVs, hVl, hVp⟩ := splitLast3_of_dvd h0 hdvd hV
  have hVh : HasShape3 (concat0 Vs) (h * b) f (e / h) := by
    have := hasShape3_concat0 hVp
    rwa [hVl] at this
  have hOut := hasShape3_matMul3 hA hVh
  obtain ⟨parts, hPs, hPl, hPp⟩ := split0_of_shape h0 hOut
  have hPne : parts ≠ [] := by
    intro hnil
    rw [hnil] at hPl
    simp at hPl
    exact h0 hPl.symm
  have hCat : HasShape3 (concatLast3 parts) b f e := by
    have := hasShape3_concatLast3 hPne hPp
    rwa [hPl, Nat.mul_div_cancel' hdvd] at this
  refine ⟨if att_res then tensorAdd (concatLast3 parts) inputs
    else concatLast3 parts, ?_, ?_⟩
  · simp [AutoIntLayer.call, hAeq, hVs, hPs]
  · cases att_res with
    | true => simpa using hasShape3_tensorAdd hCat hin
    | false => simpa using hCat

theorem autoIntLayer_call_none_of_not_dvd {W_Query W_Key W_Value : List (List ℝ)}
    {h b f e : ℕ} {att_res : Bool} {inputs : List (List (List ℝ))}
    (hb : 0 < b) (hf : 0 < f) (hin : HasShape3 inputs b f e)
    (hq : W_Query.length = e) (hnd : ¬ h ∣ e) :
    AutoIntLayer.call W_Query W_Key W_Value h att_res inputs = none := by
  have hQ : HasShape3 (denseNB W_Query inputs) b f e := by
    have := hasShape3_denseNB W_Query hin
    rwa [hq] at this
  have hld : lastDim (denseNB W_Query inputs) = e := lastDim_of_shape hQ hb hf
  have hsplit : splitLast3 h (denseNB W_Query inputs) = none :=
    splitLast3_none_of_not_dvd (by rw [hld]; exact hnd)
  simp [AutoIntLayer.call, attentionScores, hsplit]

end LayerLemmas

section EmbeddingLemmas

theorem cumsum_ne_nil {d : ℕ} {ds : List ℕ} : cumsum (d :: ds) ≠ [] := by
  simp [cumsum]

theorem cumsum_length (ds : List ℕ) : (cumsum ds).length = ds.length := by
  induction ds with
  | nil => simp [cumsum]
  | cons d ds ih => simp [cumsum, ih]

theorem offsets_nil : FeaturesEmbedding.offsets [] = [0] := rfl

theorem offsets_single (d : ℕ) : FeaturesEmbedding.offsets [d] = [0] := rfl

theorem offsets_cons {d : ℕ} {ds : List ℕ} (hds : ds ≠ []) :
    FeaturesEmbedding.offsets (d :: ds) =
      0 :: (FeaturesEmbedding.offsets ds).map (fun o => d + o) := by
  obtain ⟨d', ds', rfl⟩ := List.exists_cons_of_ne_nil hds
  unfold FeaturesEmbedding.offsets
  rw [show cumsum (d :: d' :: ds') = d :: (cumsum (d' :: ds')).map (fun s => d + s)
    from rfl]
  rw [List.dropLast_cons_of_ne_nil (by simp [cumsum])]
  simp [List.map_dropLast]

theorem offsets_length (ds : List ℕ) :
    (FeaturesEmbedding.offsets ds).length = max 1 ds.length := by
  unfold FeaturesEmbedding.offsets
  rcases ds with _ | ⟨d, ds⟩
  · simp [cumsum]
  · simp [List.length_dropLast, cumsum_length]

theorem globalIndices_length {ds row : List ℕ} (hlen : row.length = ds.length) :
    (globalIndices ds row).length = ds.length := by
  unfold globalIndices
  rw [List.length_zipWith, hlen, offsets_length]
  omega

end EmbeddingLemmas

section SliceLemmas

theorem map_shift_shift (t d : ℕ) (l : List ℕ) :
    (l.map (fun o => d + o)).map (fun o => t + o) =
      l.map (fun o => t + d + o) := by
  rw [List.map_map]
  exact List.map_congr_left (fun a _ => by simp [Function.comp, add_assoc])

theorem forall2_inSlice_shifted {row ds : List ℕ}
    (hf : List.Forall₂ (· < ·) row ds) : ∀ t : ℕ,
    List.Forall₂ inSlice
      (List.zipWith (· + ·) row ((FeaturesEmbedding.offsets ds).map (fun o => t + o)))
      (((FeaturesEmbedding.offsets ds).map (fun o => t + o)).zip ds) := by
  induction hf with
  | nil => intro t; simp [offsets_nil]
  | @cons r d rs ds' hrd htail ih =>
      intro t
      rcases eq_or_ne ds' [] with rfl | hne
      · have hrs : rs = [] := by simpa using htail
        subst hrs
        refine List.Forall₂.cons ?_ (by simp [offsets_single])
        constructor
        · simp [inSlice]
        · simp only [inSlice]
          omega
      · rw [offsets_cons hne, List.map_cons, map_shift_shift t d]
        rw [List.zipWith_cons_cons, List.zip_cons_cons]
        refine List.Forall₂.cons ?_ (ih (t + d))
        simp only [inSlice]
        omega

theorem pairwise_disjointSlice_shifted :
    ∀ (ds : List ℕ) (t : ℕ),
      List.Pairwise disjointSlice
        (((FeaturesEmbedding.offsets ds).map (fun o => t + o)).zip ds)
  | [], t => by simp [offsets_nil]
  | [d], t => by simp [offsets_single]
  | d :: d' :: ds', t => by
      have hne : d' :: ds' ≠ [] := by simp
      rw [offsets_cons hne, List.map_cons, map_shift_shift t d,
        List.zip_cons_cons]
      refine List.Pairwise.cons ?_ (pairwise_disjointSlice_shifted (d' :: ds') (t + d))
      rintro ⟨y1, y2⟩ hy
      have hy1 : y1 ∈ (FeaturesEmbedding.offsets (d' :: ds')).map
          (fun o => t + d + o) := (List.of_mem_zip hy).1
      obtain ⟨o, _, rfl⟩ := List.mem_map.1 hy1
      intro n h1 h2 h3
      simp only at h1 h2
      omega

theorem forall2_inSlice {row ds : List ℕ} (hf : List.Forall₂ (· < ·) row ds) :
    List.Forall₂ inSlice (globalIndices ds row)
      ((FeaturesEmbedding.offsets ds).zip ds) := by
  have h := forall2_inSlice_shifted hf 0
  have hid : (FeaturesEmbedding.offsets ds).map (fun o => 0 + o) =
      FeaturesEmbedding.offsets ds := by
    simp
  rw [hid] at h
  exact h

theorem pairwise_disjointSlice (ds : List ℕ) :
    List.Pairwise disjointSlice ((FeaturesEmbedding.offsets ds).zip ds) := by
  have h := pairwise_disjointSlice_shifted ds 0
  have hid : (FeaturesEmbedding.offsets ds).map (fun o => 0 + o) =
      FeaturesEmbedding.offsets ds := by
    simp
  rw [hid] at h
  exact h

theorem featuresEmbedding_call_shape {α : Type} (table : ℕ → List α)
    {ds : List ℕ} {embed_dim : ℕ} {xs : List (List ℕ)}
    (hrows : ∀ row ∈ xs, row.length = ds.length)
    (htable : ∀ n, (table n).length = embed_dim) :
    HasShape3 (FeaturesEmbedding.call table ds xs) xs.length ds.length embed_dim := by
  constructor
  · simp [FeaturesEmbedding.call]
  · intro m hm
    obtain ⟨row, hrow, rfl⟩ := List.mem_map.1 hm
    constructor
    · simp [globalIndices_length (hrows row hrow)]
    · intro r hr
      obtain ⟨g, _, rfl⟩ := List.mem_map.1 hr
      exact htable g

end SliceLemmas

section PredictLemmas

instance descBySnd_total {α : Type} [LinearOrder α] :
    IsTotal (ℤ × α) (fun s t => t.2 ≤ s.2) :=
  ⟨fun a b => (le_total b.2 a.2).imp id id⟩

instance descBySnd_trans {α : Type} [LinearOrder α] :
    IsTrans (ℤ × α) (fun s t => t.2 ≤ s.2) :=
  ⟨fun _ _ _ h1 h2 => le_trans h2 h1⟩

theorem predictBatches_eq_map {α : Type} (score : List ℤ → α) :
    ∀ rows : List (List ℤ),
      predictBatches score rows = rows.map (fun row => (row.getD 1 0, score row))
  | [] => by rw [predictBatches]; rfl
  | r :: rs => by
      rw [predictBatches]
      have ih := predictBatches_eq_map score ((r :: rs).drop 2048)
      rw [ih, ← List.map_append, List.take_append_drop]
  termination_by rows => rows.length
  decreasing_by simp; omega

end PredictLemmas

section Claims

/-- C1 counterexample: with field cardinalities [5, 3, 10] the input row
[2, 1, 7] is looked up at the global indices [2, 6, 15], not at [2, 6, 8]
as the claim states (the third index is 7 + offset 8 = 15). -/
theorem c1_counterexample :
    globalIndices [5, 3, 10] [2, 1, 7] = [2, 6, 15] ∧
      globalIndices [5, 3, 10] [2, 1, 7] ≠ [2, 6, 8] := by
  decide

/-- C1 (amended): for field cardinalities [5, 3, 10] the per-field offsets
are (0, 5, 8), and calling FeaturesEmbedding on the single input row
[2, 1, 7] performs embedding-table lookups at exactly the global indices
[2, 6, 15]. -/
theorem c1_embedding_lookup_indices (α : Type) (table : ℕ → List α) :
    FeaturesEmbedding.offsets [5, 3, 10] = [0, 5, 8] ∧
      FeaturesEmbedding.call table [5, 3, 10] [[2, 1, 7]] =
        [[table 2, table 6, table 15]] :=
  ⟨rfl, rfl⟩

/-- C7: MultiHeadSelfAttention raises exactly when constructed with a head
count at most 0, and exactly when built or called on an input that is not
3-dimensional; with a positive head count and a 3-dimensional input none
of the error branches is taken. -/
theorem c7_mhsa_error_conditions (att_embedding_size head_num : ℤ)
    (use_res scaling : Bool) (seed : ℤ) (input_shape : List ℕ) (ndim : ℕ) :
    ((MultiHeadSelfAttention.init att_embedding_size head_num use_res scaling
        seed).isOk ↔ 0 < head_num) ∧
    ((MultiHeadSelfAttention.build input_shape).isOk ↔ input_shape.length = 3) ∧
    ((MultiHeadSelfAttention.callCheck ndim).isOk ↔ ndim = 3) := by
  refine ⟨?_, ?_, ?_⟩
  · unfold MultiHeadSelfAttention.init
    by_cases h : head_num ≤ 0
    · simp [h, Except.isOk, Except.toBool]
    · simp [h, Except.isOk, Except.toBool]
      omega
  · unfold MultiHeadSelfAttention.build
    by_cases h : input_shape.length ≠ 3
    · simp [h, Except.isOk, Except.toBool]
    · simp [h, Except.isOk, Except.toBool]
      omega
  · unfold MultiHeadSelfAttention.callCheck
    by_cases h : ndim ≠ 3
    · simp [h, Except.isOk, Except.toBool]
    · simp [h, Except.isOk, Except.toBool]
      omega

/-- C6: on identical weights and input, the residual-enabled AutoIntLayer
output is the residual-disabled output plus the original input, including
in the failure case where both are none. -/
theorem c6_residual_additive (W_Query W_Key W_Value : List (List ℝ))
    (att_head_num : ℕ) (inputs : List (List (List ℝ))) :
    AutoIntLayer.call W_Query W_Key W_Value att_head_num true inputs =
      Option.map (fun out => tensorAdd out inputs)
        (AutoIntLayer.call W_Query W_Key W_Value att_head_num false inputs) := by
  unfold AutoIntLayer.call
  cases attentionScores W_Query W_Key att_head_num inputs with
  | none => rfl
  | some A =>
      simp only [Option.some_bind]
      cases splitLast3 att_head_num (denseNB W_Value inputs) with
      | none => rfl
      | some Vs =>
          simp only [Option.some_bind]
          cases split0 att_head_num (matMul3 A (concat0 Vs)) with
          | none => rfl
          | some parts => simp


/-- C2 counterexample: for the one-row table [[5, 7]] whose first two
columns are (user identifier 5, item identifier 7), predict_model returns
the pair (7, score), i.e. the second column (the item identifier), not the
user identifier 5 the claim names. -/
theorem c2_counterexample :
    predict_model (fun _ => (0 : ℚ)) [[5, 7]] = [(7, 0)] ∧ ((7 : ℤ) ≠ 5) := by
  constructor
  · rw [predict_model, predictBatches_eq_map]
    decide
  · decide

/-- C2 (amended): predict_model returns at most 10 pairs, no more than one
per input row, sorted by descending score, and each returned pair is the
second column of some input row (the item identifier under the stated
column convention, not the user identifier) paired with that row's score. -/
theorem c2_predict_model_spec {α : Type} [LinearOrder α] (score : List ℤ → α)
    (rows : List (List ℤ)) :
    (predict_model score rows).length ≤ 10 ∧
    (predict_model score rows).length ≤ rows.length ∧
    List.Sorted (fun s t : ℤ × α => t.2 ≤ s.2) (predict_model score rows) ∧
    ∀ p ∈ predict_model score rows, ∃ row ∈ rows, p = (row.getD 1 0, score row) := by
  have hperm := List.perm_insertionSort (fun s t : ℤ × α => t.2 ≤ s.2)
    (predictBatches score rows)
  have hlen : (List.insertionSort (fun s t : ℤ × α => t.2 ≤ s.2)
      (predictBatches score rows)).length = rows.length := by
    rw [hperm.length_eq, predictBatches_eq_map, List.length_map]
  refine ⟨?_, ?_, ?_, ?_⟩
  · rw [predict_model, List.length_take]
    omega
  · rw [predict_model, List.length_take]
    omega
  · exact (List.sorted_insertionSort _ _).sublist (List.take_sublist _ _)
  · intro p hp
    have hp1 : p ∈ List.insertionSort (fun s t : ℤ × α => t.2 ≤ s.2)
        (predictBatches score rows) := List.mem_of_mem_take hp
    have hp2 : p ∈ predictBatches score rows := hperm.mem_iff.1 hp1
    rw [predictBatches_eq_map] at hp2
    obtain ⟨row, hrow, heq⟩ := List.mem_map.1 hp2
    exact ⟨row, hrow, heq.symm⟩

/-- C4: for valid field cardinalities and in-bounds per-field codes, the
FeaturesEmbedding output has shape batch x num_fields x embedding_dim, the
global index of field i lies in the contiguous slice
[offset_i, offset_i + cardinality_i) of the shared table, and these slices
are pairwise disjoint across fields. -/
theorem c4_embedding_shape_and_slices (α : Type) (table : ℕ → List α)
    (field_dims : List ℕ) (embed_dim : ℕ) (xs : List (List ℕ))
    (hrows : ∀ row ∈ xs, row.length = field_dims.length ∧
      List.Forall₂ (· < ·) row field_dims)
    (htable : ∀ n, (table n).length = embed_dim) :
    HasShape3 (FeaturesEmbedding.call table field_dims xs)
        xs.length field_dims.length embed_dim ∧
    (∀ row ∈ xs, List.Forall₂ inSlice (globalIndices field_dims row)
        ((FeaturesEmbedding.offsets field_dims).zip field_dims)) ∧
    List.Pairwise disjointSlice
        ((FeaturesEmbedding.offsets field_dims).zip field_dims) :=
  ⟨featuresEmbedding_call_shape table (fun row h => (hrows row h).1) htable,
   fun row h => forall2_inSlice (hrows row h).2,
   pairwise_disjointSlice field_dims⟩

/-- C4 witness: the theorem instantiated at field cardinalities [5, 3, 10],
embedding dimension 2, the constant table row [0, 0] and the single input
row [2, 1, 7]. -/
theorem c4_witness :
    ((∀ row ∈ [[2, 1, 7]], row.length = [5, 3, 10].length ∧
        List.Forall₂ (· < ·) row [5, 3, 10]) ∧
      (∀ n : ℕ, ((fun _ : ℕ => [(0 : ℚ), 0]) n).length = 2)) ∧
    (HasShape3 (FeaturesEmbedding.call (fun _ : ℕ => [(0 : ℚ), 0]) [5, 3, 10] [[2, 1, 7]])
        1 3 2 ∧
    (∀ row ∈ [[2, 1, 7]], List.Forall₂ inSlice (globalIndices [5, 3, 10] row)
        ((FeaturesEmbedding.offsets [5, 3, 10]).zip [5, 3, 10])) ∧
    List.Pairwise disjointSlice
        ((FeaturesEmbedding.offsets [5, 3, 10]).zip [5, 3, 10])) :=
  ⟨⟨by decide, fun _ => rfl⟩,
   c4_embedding_shape_and_slices ℚ (fun _ : ℕ => [0, 0]) [5, 3, 10] 2 [[2, 1, 7]]
     (by decide) (fun _ => rfl)⟩

/-- C5 counterexample: a well-shaped 1 x 1 x 4 input together with the
positive head count 3 makes AutoIntLayer.call fail (the tf.split error,
modelled as none), so the output does not have the input's shape — the
claim is false for head counts that do not divide the embedding
dimension. -/
theorem c5_counterexample :
    HasShape3 wInput4 1 1 4 ∧ 0 < 3 ∧
      AutoIntLayer.call wKernel4 wKernel4 wKernel4 3 false wInput4 = none ∧
      ¬ ∃ out, AutoIntLayer.call wKernel4 wKernel4 wKernel4 3 false wInput4 =
        some out ∧ HasShape3 out 1 1 4 := by
  have hnone : AutoIntLayer.call wKernel4 wKernel4 wKernel4 3 false wInput4 = none :=
    @autoIntLayer_call_none_of_not_dvd wKernel4 wKernel4 wKernel4 3 1 1 4 false
      wInput4 (by norm_num) (by norm_num) (by decide) (by simp [wKernel4])
      (by decide)
  refine ⟨by decide, by norm_num, hnone, ?_⟩
  rintro ⟨out, heq, _⟩
  rw [hnone] at heq
  exact Option.noConfusion heq

/-- C5 (amended): for every input of shape batch x fields x embedding_dim,
square kernels of that embedding dimension, and every positive head count
that divides the embedding dimension, AutoIntLayer.call succeeds and its
output has exactly the input's shape, so layers can be stacked. -/
theorem c5_layer_preserves_shape (W_Query W_Key W_Value : List (List ℝ))
    (att_head_num b f e : ℕ) (att_res : Bool) (inputs : List (List (List ℝ)))
    (h0 : 0 < att_head_num) (hdvd : att_head_num ∣ e)
    (hin : HasShape3 inputs b f e) (hq : W_Query.length = e)
    (hk : W_Key.length = e) (hv : W_Value.length = e) :
    ∃ out, AutoIntLayer.call W_Query W_Key W_Value att_head_num att_res inputs =
      some out ∧ HasShape3 out b f e :=
  autoIntLayer_call_of_dvd (Nat.pos_iff_ne_zero.1 h0) hdvd hin hq hk hv

/-- C5 witness: the amended theorem instantiated at a 1 x 1 x 4 all-zero
input, all-zero 4 x 4 kernels and head count 2. -/
theorem c5_witness :
    (0 < 2 ∧ (2 : ℕ) ∣ 4 ∧ HasShape3 wInput4 1 1 4 ∧ wKernel4.length = 4) ∧
    (∃ out, AutoIntLayer.call wKernel4 wKernel4 wKernel4 2 true wInput4 =
      some out ∧ HasShape3 out 1 1 4) :=
  ⟨⟨by norm_num, by norm_num, by decide, by simp [wKernel4]⟩,
   c5_layer_preserves_shape wKernel4 wKernel4 wKernel4 2 1 1 4 true wInput4
     (by norm_num) (by norm_num) (by decide) (by simp [wKernel4])
     (by simp [wKernel4]) (by simp [wKernel4])⟩

/-- C10: with a positive head count, on a nondegenerate well-shaped input
AutoIntLayer.call is well-defined exactly when the head count divides the
embedding dimension: a non-divisor head count makes the even tf.split of
the last axis fail, and under divisibility the split-and-reconcatenate
round trip restores the input's batch and feature dimensions. -/
theorem c10_head_split_divisibility (W_Query W_Key W_Value : List (List ℝ))
    (att_head_num b f e : ℕ) (att_res : Bool) (inputs : List (List (List ℝ)))
    (h0 : 0 < att_head_num) (hb : 0 < b) (hf : 0 < f)
    (hin : HasShape3 inputs b f e) (hq : W_Query.length = e)
    (hk : W_Key.length = e) (hv : W_Value.length = e) :
    (¬ att_head_num ∣ e →
      AutoIntLayer.call W_Query W_Key W_Value att_head_num att_res inputs = none) ∧
    (att_head_num ∣ e →
      ∃ out, AutoIntLayer.call W_Query W_Key W_Value att_head_num att_res inputs =
        some out ∧ HasShape3 out b f e) :=
  ⟨fun hnd => autoIntLayer_call_none_of_not_dvd hb hf hin hq hnd,
   fun hdvd => autoIntLayer_call_of_dvd (Nat.pos_iff_ne_zero.1 h0) hdvd hin hq hk hv⟩

/-- C10 witness: the theorem instantiated at head count 3 and embedding
dimension 4 on a 1 x 1 x 4 all-zero input, where the non-divisibility
branch fires. -/
theorem c10_witness :
    (0 < 3 ∧ 0 < 1 ∧ HasShape3 wInput4 1 1 4 ∧ wKernel4.length = 4) ∧
    ((¬ (3 : ℕ) ∣ 4 →
      AutoIntLayer.call wKernel4 wKernel4 wKernel4 3 false wInput4 = none) ∧
    ((3 : ℕ) ∣ 4 →
      ∃ out, AutoIntLayer.call wKernel4 wKernel4 wKernel4 3 false wInput4 =
        some out ∧ HasShape3 out 1 1 4)) :=
  ⟨⟨by norm_num, by norm_num, by decide, by simp [wKernel4]⟩,
   c10_head_split_divisibility wKernel4 wKernel4 wKernel4 3 1 1 4 false wInput4
     (by norm_num) (by norm_num) (by norm_num) (by decide) (by simp [wKernel4])
     (by simp [wKernel4]) (by simp [wKernel4])⟩

/-- C9: in the attention computation of AutoIntLayer, after softmax
normalisation along the key axis every row of every attention-score matrix
(for every stacked head-batch element) sums to exactly 1 in exact real
arithmetic. -/
theorem c9_softmax_rows_sum_to_one (W_Query W_Key : List (List ℝ))
    (att_head_num b f e : ℕ) (inputs : List (List (List ℝ)))
    (h0 : 0 < att_head_num) (hdvd : att_head_num ∣ e)
    (hin : HasShape3 inputs b f e) (hq : W_Query.length = e)
    (hk : W_Key.length = e) :
    ∃ A, attentionScores W_Query W_Key att_head_num inputs = some A ∧
      ∀ mat ∈ A, ∀ row ∈ mat, row.sum = 1 := by
  obtain ⟨A, hA, _, hsum⟩ :=
    attentionScores_of_dvd (Nat.pos_iff_ne_zero.1 h0) hdvd hin hq hk
  exact ⟨A, hA, hsum⟩

/-- C9 witness: the theorem instantiated at a 1 x 1 x 2 all-zero input,
all-zero 2 x 2 kernels and head count 2. -/
theorem c9_witness :
    (0 < 2 ∧ (2 : ℕ) ∣ 2 ∧ HasShape3 wInput2 1 1 2 ∧ wKernel2.length = 2) ∧
    (∃ A, attentionScores wKernel2 wKernel2 2 wInput2 = some A ∧
      ∀ mat ∈ A, ∀ row ∈ mat, row.sum = 1) :=
  ⟨⟨by norm_num, by norm_num, by decide, by simp [wKernel2]⟩,
   c9_softmax_rows_sum_to_one wKernel2 wKernel2 2 1 1 2 wInput2
     (by norm_num) (by norm_num) (by decide) (by simp [wKernel2])
     (by simp [wKernel2])⟩

/-- C8: every element of the output of the fused model (AutoIntMLP and the
AutoIntMLPModel wrapper) lies strictly between 0 and 1, because each
output entry is a sigmoid value. -/
theorem c8_output_in_open_unit_interval (m : AutoIntMLP) (xs : List (List ℕ)) :
    probOutput (AutoIntMLP.call m xs) ∧ probOutput (AutoIntMLPModel.call m xs) := by
  have hmain : probOutput (AutoIntMLP.call m xs) := by
    intro out hout row hrow y hy
    cases hR : runLayers m.intLayers m.att_head_num m.att_res
        (FeaturesEmbedding.call m.table m.field_dims xs) with
    | none =>
        simp only [AutoIntMLP.call, hR, Option.none_bind, Option.mem_def] at hout
        exact absurd hout (by simp)
    | some att =>
        simp only [AutoIntMLP.call, hR, Option.some_bind, Option.mem_def,
          Option.some_inj] at hout
        subst hout
        obtain ⟨a, _, d, _, rfl⟩ := mem_zipWith_decomp hrow
        obtain ⟨p, _, q, _, rfl⟩ := mem_zipWith_decomp hy
        exact ⟨sigmoid_pos _, sigmoid_lt_one _⟩
  exact ⟨hmain, hmain⟩

/-- C3: in AutoIntMLP's forward pass the DNN branch ends in its own
sigmoid-activated scalar, the attention branch produces a raw scalar logit
as the bias-free projection (a plain dot product, no bias) of the
flattened final attention output, and each final prediction is the sigmoid
of the sum of these two scalars. -/
theorem c3_autoIntMLP_fusion (m : AutoIntMLP) (c : List ℝ) (b0 : ℝ)
    (xs : List (List ℕ)) (att : List (List (List ℝ)))
    (hatt : runLayers m.intLayers m.att_head_num m.att_res
      (FeaturesEmbedding.call m.table m.field_dims xs) = some att)
    (hc : m.dnnFinal.cols = [c]) (hb : m.dnnFinal.bias = [b0]) :
    AutoIntMLP.call m xs = some (List.zipWith
      (fun aRow x => [sigmoid (dot aRow.flatten m.finalCol +
        sigmoid (dot (m.dnnHidden.foldl (fun v L => denseForward m.dnnAct L v)
          x.flatten) c + b0))])
      att (FeaturesEmbedding.call m.table m.field_dims xs)) := by
  simp only [AutoIntMLP.call, hatt, Option.some_bind, Option.some_inj,
    List.map_map, List.zipWith_map_left, List.zipWith_map_right]
  refine zipWith_ext (fun a x => ?_) att (FeaturesEmbedding.call m.table m.field_dims xs)
  simp only [Function.comp, dnnBranch, denseForward, hc, hb,
    List.zipWith_cons_cons, List.zipWith_nil_right, List.zipWith_nil_left]

/-- C3 witness: the theorem instantiated at the concrete parameter set
wModel (empty attention stack, so the attention input reaches the fusion
unchanged) on the single input row [0]. -/
theorem c3_witness :
    (runLayers wModel.intLayers wModel.att_head_num wModel.att_res
        (FeaturesEmbedding.call wModel.table wModel.field_dims [[0]]) =
      some (FeaturesEmbedding.call wModel.table wModel.field_dims [[0]]) ∧
      wModel.dnnFinal.cols = [[0]] ∧ wModel.dnnFinal.bias = [0]) ∧
    AutoIntMLP.call wModel [[0]] = some (List.zipWith
      (fun aRow x => [sigmoid (dot aRow.flatten wModel.finalCol +
        sigmoid (dot (wModel.dnnHidden.foldl
          (fun v L => denseForward wModel.dnnAct L v) x.flatten) [0] + 0))])
      (FeaturesEmbedding.call wModel.table wModel.field_dims [[0]])
      (FeaturesEmbedding.call wModel.table wModel.field_dims [[0]])) :=
  ⟨⟨rfl, rfl, rfl⟩,
   c3_autoIntMLP_fusion wModel [0] 0 [[0]]
     (FeaturesEmbedding.call wModel.table wModel.field_dims [[0]]) rfl rfl rfl⟩

end Claims
